import Mathlib

/-!
A verification model of the calcgraph evaluation core (`calcgraph.h`).

The embedding is sequential: the source's atomics (`std::atomic` loads,
stores, exchanges and CASes) become plain state updates, which is the
faithful projection of the code onto single-threaded executions — every
CAS succeeds on its first attempt and every exchange is an ordinary
read-modify-write.  Concurrency-only behaviour (spin loops, CAS retries)
is noted where it is dropped.

Representation choices:
* A `Work` object is identified by its `id` (ids are unique per graph and
  the sentinel tombstone has id 0), so pointers to works are modelled by
  ids; the null pointer is `Option.none` and the tombstone is `some 0`
  (the graph's intake-queue head, a `Work*` that is never null, is a bare
  `Nat` with 0 for the tombstone).
* `Value` slots hold `Int` (the source is templated; the tests instantiate
  at `int`).  A node's input tuple is a `List Int`, and its function
  `fn` consumes the whole slot list.
* The `Stats` counters are `uint16_t` in the source; they are modelled as
  `Nat` because none of the verified claims involves counter wraparound,
  which would need 2^16 work items in one pass.  The model corresponds to
  a non-null `stats` pointer (the `if (stats)` guards taken).
* `std::priority_queue` with `WorkQueueCmp` (`a->id > b->id`) always pops
  a minimal id; the heap is modelled by the sorted (ascending) list of
  its elements, `top`/`pop` taking the head.
-/

namespace Calcgraph

/-- Where an `Input`'s `Value<T>* in` pointer aims: either the `idx`-th
slot of the node with id `node`, or a caller-owned sink cell (the `idx`-th
entry of the graph's sink list).  Structural equality of `ValueLoc` models
pointer identity of the `Value` cell. -/
inductive ValueLoc where
  | slot (node : Nat) (idx : Nat)
  | sink (idx : Nat)
deriving DecidableEq

/-- `Input<RET>`: a `Value` pointer plus an optional refcounted `Work`
handle (`boost::intrusive_ptr<Work> ref`), the handle being the id of the
owning node. -/
structure InputR where
  dest : ValueLoc
  ref : Option Nat
deriving DecidableEq

/-- `Input::operator==`: equality is based on what it is an Input to (the
`in` pointer), not on the current value and not on the `ref` handle. -/
def inputEq (a b : InputR) : Bool := decide (a.dest = b.dest)

/-- `OnChange<RET>::operator()` together with `Value::exchange`: swap the
stored last value for the latest one and report whether the previous
value differs (`last.exchange(latest) != latest`).  Returns the decision
and the new stored value. -/
def OnChangeRun {R : Type} [BEq R] (last latest : R) : Bool × R :=
  (last != latest, latest)

/-- A node's propagation policy: `Always` (stateless, always true) or
`OnChange` carrying its stored `Value<RET> last`. -/
inductive Policy where
  | always : Policy
  | onChange (last : Int) : Policy
deriving DecidableEq

/-- Invoke the propagation policy on a freshly computed value, returning
the propagate decision and the policy's updated state. -/
def Policy.run : Policy → Int → Bool × Policy
  | .always, _ => (true, .always)
  | .onChange last, latest =>
      let p := OnChangeRun last latest
      (p.1, .onChange p.2)

/-- A `Work`'s `next` word: the LSB lock flag and the remaining bits,
which are either null (`none`, not on the intake queue) or a pointer to
the next work on the queue (`some k`, with `k = 0` the tombstone). -/
structure NextWord where
  locked : Bool
  ptr : Option Nat
deriving DecidableEq

/-- `Work::trylock_and_dequeue`: `next.exchange(flags::LOCK)`.  The new
word is locked with null queue-pointer bits regardless of the outcome;
the first component is true iff the lock was successfully acquired
(the old word was unlocked). -/
def trylockAndDequeue (n : NextWord) : Bool × NextWord :=
  (!n.locked, ⟨true, none⟩)

/-- A `Node` (the only user-constructible concrete `Work`): id, function,
`Value` slots for its inputs, downstream dependents, propagation policy,
intrusive refcount and the packed `next` word. -/
structure GNode where
  id : Nat
  fn : List Int → Int
  inputs : List Int
  dependents : List InputR
  policy : Policy
  refcount : Nat
  next : NextWord

/-- The graph state: its nodes, the caller-owned sink cells, and the
intake-queue head (`work_queue`), `0` denoting the tombstone. -/
structure GraphS where
  nodes : List GNode
  sinks : List Int
  workQueueHead : Nat

/-- Look a work up by id (ids are unique per graph). -/
def getNode (g : GraphS) (i : Nat) : Option GNode :=
  g.nodes.find? (fun n => n.id == i)

/-- Update the node with id `i` in place. -/
def setNode (g : GraphS) (i : Nat) (f : GNode → GNode) : GraphS :=
  { g with nodes := g.nodes.map (fun n => if n.id == i then f n else n) }

/-- `intrusive_ptr_add_ref`: increment a work's refcount. -/
def addRef (g : GraphS) (wid : Nat) : GraphS :=
  setNode g wid (fun n => { n with refcount := n.refcount + 1 })

/-- `intrusive_ptr_release`: decrement a work's refcount.  (Deallocation
at zero is memory management and is not modelled.) -/
def releaseRef (g : GraphS) (wid : Nat) : GraphS :=
  setNode g wid (fun n => { n with refcount := n.refcount - 1 })

/-- `Work::release`: clear the LSB lock flag, keeping the queue bits. -/
def releaseLock (g : GraphS) (wid : Nat) : GraphS :=
  setNode g wid (fun n => { n with next := ⟨false, n.next.ptr⟩ })

/-- Store a value through an `Input`'s `Value` pointer. -/
def storeLoc (g : GraphS) (loc : ValueLoc) (v : Int) : GraphS :=
  match loc with
  | .slot nid idx => setNode g nid (fun n => { n with inputs := n.inputs.set idx v })
  | .sink idx => { g with sinks := g.sinks.set idx v }

/-- `Work::schedule`, sequential semantics (both CASes succeed first
time, so the retry loop runs exactly one iteration): add a reference;
if the queue-pointer bits are already non-null on the first inspection,
drop the reference and return; otherwise point `next` at the current
head (preserving the lock bit, `head | locked`) and swing the head to
this work, keeping the reference for the queue. -/
def schedule (g : GraphS) (wid : Nat) : GraphS :=
  let g1 := addRef g wid
  match getNode g1 wid with
  | none => g1
  | some n =>
    if n.next.ptr.isSome then
      releaseRef g1 wid
    else
      let g2 := setNode g1 wid
        (fun m => { m with next := ⟨m.next.locked, some g1.workQueueHead⟩ })
      { g2 with workQueueHead := wid }

/-- A single pass's statistics (`struct Stats`; `uint16_t` fields in the
source, see the header comment). -/
structure Stats where
  queued : Nat
  worked : Nat
  duplicates : Nat
  pushed_graph : Nat
  pushed_heap : Nat
deriving DecidableEq

/-- `EmptyStats`: the zeroed statistics written at pass start. -/
def EmptyStats : Stats := ⟨0, 0, 0, 0, 0⟩

/-- `WorkState`: the per-pass heap (as its sorted element list), the
`current_id` cursor and the statistics sink. -/
structure WState where
  q : List Nat
  currentId : Nat
  stats : Stats

/-- `WorkQueueCmp::operator()`: compares two works by `a->id > b->id`,
making `std::priority_queue` pop a minimal id first. -/
def workQueueCmp (a b : Nat) : Bool := decide (b < a)

/-- Push onto the heap: insert into the sorted element list (equal ids
end up adjacent; their relative order is unobservable). -/
def heapPush : List Nat → Nat → List Nat
  | [], x => [x]
  | y :: ys, x => if workQueueCmp y x then x :: y :: ys else y :: heapPush ys x

/-- `WorkState::add_to_queue`: if `work.id <= current_id` the heap cannot
honour topological order this pass, so `schedule` the work back onto the
graph's intake queue (counting `pushed_graph`); otherwise add a reference
to keep it alive on the heap, push it, and count `pushed_heap`. -/
def addToQueue (g : GraphS) (ws : WState) (wid : Nat) : GraphS × WState :=
  if wid ≤ ws.currentId then
    (schedule g wid,
     { ws with stats := { ws.stats with pushed_graph := ws.stats.pushed_graph + 1 } })
  else
    (addRef g wid,
     { ws with q := heapPush ws.q wid,
               stats := { ws.stats with pushed_heap := ws.stats.pushed_heap + 1 } })

/-- The dependents loop inside `Node::eval`: for each downstream `Input`,
store the value into its `Value` slot and, if it carries a `Work`
handle, add that work via `add_to_queue`. -/
def propagateAll (val : Int) : List InputR → GraphS → WState → GraphS × WState
  | [], g, ws => (g, ws)
  | d :: rest, g, ws =>
    let g1 := storeLoc g d.dest val
    match d.ref with
    | some r =>
      let p := addToQueue g1 ws r
      propagateAll val rest p.1 p.2
    | none => propagateAll val rest g1 ws

/-- `Node::eval`: `trylock_and_dequeue`; on failure put the node back via
`add_to_queue` and return.  On success read the input slots, apply `fn`,
consult the propagation policy (which updates its stored state), if it
says yes store the result into every dependent and enqueue their works,
then `release` the lock.  (`eval` on an id with no node corresponds to no
concrete `Work` and does nothing.) -/
def nodeEval (g : GraphS) (ws : WState) (wid : Nat) : GraphS × WState :=
  match getNode g wid with
  | none => (g, ws)
  | some n =>
    let t := trylockAndDequeue n.next
    let g1 := setNode g wid (fun m => { m with next := t.2 })
    if t.1 = false then
      addToQueue g1 ws wid
    else
      let val := n.fn n.inputs
      let pr := Policy.run n.policy val
      let g2 := setNode g1 wid (fun m => { m with policy := pr.2 })
      let out := if pr.1 then propagateAll val n.dependents g2 ws else (g2, ws)
      (releaseLock out.1 wid, out.2)

/-- The duplicate-coalescing inner loop of `Graph::operator()`: while the
heap's top has the same id as the work just popped, release its reference,
pop it and count a duplicate. -/
def popDuplicates (wid : Nat) : List Nat → GraphS → Stats → GraphS × List Nat × Stats
  | [], g, st => (g, [], st)
  | x :: xs, g, st =>
    if x = wid then
      popDuplicates wid xs (releaseRef g x) { st with duplicates := st.duplicates + 1 }
    else
      (g, x :: xs, st)

/-- `Work::readnext`: the queue-pointer bits of a work's next word, the
lock flag masked off. -/
def chainNext (g : GraphS) (w : Nat) : Option Nat :=
  match getNode g w with
  | none => none
  | some n => n.next.ptr

/-- Walking the drained intake-queue snapshot: follow each work's
`readnext` until the tombstone.  Fuel bounds the walk; `Graph::evaluate`
passes one more than the node count, enough for any well-formed queue. -/
def chainList (g : GraphS) : Nat → Nat → List Nat
  | 0, _ => []
  | fuel+1, w =>
    if w = 0 then []
    else w :: ((chainNext g w).elim [] (fun nxt => chainList g fuel nxt))

/-- Step 2 of the pass: push each drained work onto the heap, counting
`queued` for each. -/
def drainFold : List Nat → List Nat → Stats → List Nat × Stats
  | [], q, st => (q, st)
  | w :: rest, q, st =>
    drainFold rest (heapPush q w) { st with queued := st.queued + 1 }

/-- Outcome of the main heap loop: final graph, statistics, the ids on
which `eval` was invoked in invocation order, and whether the loop ran to
heap exhaustion within its fuel. -/
structure LoopOut where
  g : GraphS
  stats : Stats
  evalOrder : List Nat
  finished : Bool

/-- One iteration of the main loop of `Graph::operator()`, after the
minimum-id work `w` has been popped off the heap (leaving `rest`):
coalesce duplicates of `w`'s id, set `current_id := w`, invoke `eval`,
count `worked`, and release the popped reference.  Returns the graph,
the remaining heap and the statistics for the next iteration. -/
def passStep (g : GraphS) (w : Nat) (rest : List Nat) (st : Stats) :
    GraphS × List Nat × Stats :=
  let d := popDuplicates w rest g st
  let p := nodeEval d.1 ⟨d.2.1, w, d.2.2⟩ w
  (releaseRef p.1 w, p.2.q, { p.2.stats with worked := p.2.stats.worked + 1 })

/-- The main loop of `Graph::operator()`: repeat `passStep` until the
heap is empty.  The source's `while` loop is expressed with fuel. -/
def passLoop : Nat → GraphS → List Nat → Stats → LoopOut
  | 0, g, q, st => ⟨g, st, [], q.isEmpty⟩
  | _+1, g, [], st => ⟨g, st, [], true⟩
  | fuel+1, g, w :: rest, st =>
    let s := passStep g w rest st
    let r := passLoop fuel s.1 s.2.1 s.2.2
    { r with evalOrder := w :: r.evalOrder }

/-- A strict upper bound on every id the pass loop can ever pop: the
largest id mentioned by the graph (node ids and dependent work handles),
plus slack.  Used only to provision fuel for the loop. -/
def maxRef (g : GraphS) : Nat :=
  g.nodes.foldr
    (fun n acc =>
      max n.id (max (n.dependents.foldr (fun d a => max (d.ref.getD 0) a) 0) acc))
    0

/-- Fuel provisioned for one pass's main loop. -/
def graphFuel (g : GraphS) : Nat := maxRef g + 2

/-- The result of `Graph::operator()`: the graph afterwards, the
statistics written through the `stats` pointer, the `eval` invocation
order, the loop-completion flag, and the boolean return value. -/
structure PassResult where
  g : GraphS
  stats : Stats
  evalOrder : List Nat
  finished : Bool
  ret : Bool

/-- `Graph::operator()` (one evaluation pass): zero the statistics,
atomically swap the intake-queue head with the tombstone; if the head was
the tombstone return false; otherwise walk the snapshot pushing each work
onto the heap, run the main loop, and return true. -/
def evaluate (g : GraphS) : PassResult :=
  let head := g.workQueueHead
  let g1 : GraphS := { g with workQueueHead := 0 }
  if head = 0 then
    ⟨g1, EmptyStats, [], true, false⟩
  else
    let chain := chainList g1 (g1.nodes.length + 1) head
    let d := drainFold chain [] EmptyStats
    let r := passLoop (graphFuel g1) g1 d.1 d.2
    ⟨r.g, r.stats, r.evalOrder, r.finished, true⟩

/-- `std::forward_list::remove(a)`, as used by `Node::disconnect`:
removes every element `d` with `d == a` (that is, `inputEq d a`). -/
def dependentsRemove (deps : List InputR) (a : InputR) : List InputR :=
  deps.filter (fun d => !(inputEq d a))

/-- `Node::disconnect`: spin on `trylock`, remove matching dependents,
`release`.  Sequentially the lock section reduces to the list update. -/
def nodeDisconnect (g : GraphS) (wid : Nat) (a : InputR) : GraphS :=
  setNode g wid (fun n => { n with dependents := dependentsRemove n.dependents a })

/-- Modelled from the spec (for comparison with the source's behaviour):
"removes the first matching entry from the downstream list" — delete only
the first element matching by `Value`-pointer identity. -/
def removeFirstMatching : List InputR → InputR → List InputR
  | [], _ => []
  | d :: rest, a => if inputEq d a then rest else d :: removeFirstMatching rest a

/-- The invariant maintained on the per-pass heap while the cursor is at
`c`: the element list is sorted ascending and every entry's id exceeds
`c` (so the heap can still honour topological order for all of them). -/
def QInv (c : Nat) (q : List Nat) : Prop :=
  q.Pairwise (· ≤ ·) ∧ ∀ x ∈ q, c < x

/-! Concrete fixtures used by witnesses and counterexamples. -/

/-- An `Input` aimed at sink cell 0, with no work handle. -/
def aW : InputR := ⟨.sink 0, none⟩

/-- An `Input` aimed at sink cell 1, with no work handle. -/
def bW : InputR := ⟨.sink 1, none⟩

/-- A single unlocked, unqueued adder node with id 1. -/
def nW : GNode := ⟨1, fun xs => xs.foldr (· + ·) 0, [0, 0], [], .always, 1, ⟨false, none⟩⟩

/-- A graph holding just `nW`, with an empty intake queue. -/
def gW : GraphS := ⟨[nW], [0], 0⟩

/-- A work state mid-pass with an empty heap and cursor at id 5. -/
def wsW : WState := ⟨[], 5, EmptyStats⟩

/-- A node whose exclusion flag is held and which sits on the intake
queue (its next pointer aims at the tombstone). -/
def nLocked : GNode := ⟨1, fun _ => 0, [0], [], .always, 1, ⟨true, some 0⟩⟩

/-- A graph holding just `nLocked`. -/
def gLocked : GraphS := ⟨[nLocked], [], 0⟩

/-- An OnChange node whose stored last value equals what its function
computes from the current inputs, so propagation is suppressed. -/
def nOC : GNode := ⟨1, fun xs => xs.headD 0, [7], [⟨.sink 0, some 2⟩], .onChange 7, 1, ⟨false, none⟩⟩

/-- A graph holding just `nOC`. -/
def gOC : GraphS := ⟨[nOC], [0], 0⟩

/-- A self-loop: the node's output feeds its own second input slot and
carries a work handle back to itself; the node is on the intake queue. -/
def nLoop : GNode := ⟨1, fun xs => xs.foldr (· + ·) 0, [1, 0], [⟨.slot 1 1, some 1⟩], .always, 2, ⟨false, some 0⟩⟩

/-- A graph holding just `nLoop`, queued for evaluation. -/
def gLoop : GraphS := ⟨[nLoop], [], 1⟩

/-- A scheduled node feeding only a handle-free sink, so a pass leaves
the intake queue empty. -/
def nOnce : GNode := ⟨1, fun xs => xs.foldr (· + ·) 0, [1, 2], [⟨.sink 0, none⟩], .always, 2, ⟨false, some 0⟩⟩

/-- A graph holding just `nOnce`, queued for evaluation. -/
def gOnce : GraphS := ⟨[nOnce], [0], 1⟩

/-! Helper lemmas about node lookup and update. -/

/-- List version of `getNode_setNode_self`. -/
theorem find_map_set_self (i : Nat) (f : GNode → GNode) (hf : ∀ m, (f m).id = m.id)
    (n : GNode) :
    ∀ l : List GNode, l.find? (fun m => m.id == i) = some n →
      (l.map (fun m => if m.id == i then f m else m)).find? (fun m => m.id == i) = some (f n)
  | [], h => by simp at h
  | a :: as, h => by
    cases ha : (a.id == i) with
    | true =>
      have hfa : ((f a).id == i) = true := by rw [hf a]; exact ha
      simp only [List.find?, ha] at h
      injection h with h
      subst h
      simp [List.find?, ha, hfa]
    | false =>
      simp only [List.find?, ha] at h
      simp only [List.map_cons, ha, Bool.false_eq_true, if_false, List.find?]
      exact find_map_set_self i f hf n as h

/-- Looking up the id just updated, when the update preserves ids. -/
theorem getNode_setNode_self (g : GraphS) (i : Nat) (f : GNode → GNode)
    (hf : ∀ m, (f m).id = m.id) (n : GNode) (h : getNode g i = some n) :
    getNode (setNode g i f) i = some (f n) :=
  find_map_set_self i f hf n g.nodes h

/-- List version of `getNode_setNode_ne`. -/
theorem find_map_set_ne (i j : Nat) (f : GNode → GNode) (hf : ∀ m, (f m).id = m.id)
    (hij : j ≠ i) :
    ∀ l : List GNode,
      (l.map (fun m => if m.id == i then f m else m)).find? (fun m => m.id == j) =
        l.find? (fun m => m.id == j)
  | [] => rfl
  | a :: as => by
    cases ha : (a.id == i) with
    | true =>
      have hai : a.id = i := by simpa using ha
      have haj : (a.id == j) = false := by
        simp only [beq_eq_false_iff_ne, ne_eq, hai]
        exact fun hc => hij hc.symm
      have hfj : ((f a).id == j) = false := by rw [hf a]; exact haj
      simp only [List.map_cons, ha, if_true, List.find?, hfj, haj]
      exact find_map_set_ne i j f hf hij as
    | false =>
      simp only [List.map_cons, ha, Bool.false_eq_true, if_false, List.find?]
      cases haj : (a.id == j) with
      | true => rfl
      | false => exact find_map_set_ne i j f hf hij as

/-- Updating one id leaves lookups of every other id unchanged, when the
update preserves ids. -/
theorem getNode_setNode_ne (g : GraphS) (i j : Nat) (f : GNode → GNode)
    (hf : ∀ m, (f m).id = m.id) (hij : j ≠ i) :
    getNode (setNode g i f) j = getNode g j :=
  find_map_set_ne i j f hf hij g.nodes

/-- Two id-preserving updates of the same id compose. -/
theorem setNode_setNode (g : GraphS) (i : Nat) (f f2 : GNode → GNode)
    (hf : ∀ m, (f m).id = m.id) :
    setNode (setNode g i f) i f2 = setNode g i (fun m => f2 (f m)) := by
  unfold setNode
  simp only [List.map_map]
  congr 1
  apply List.map_congr_left
  intro a _
  cases ha : (a.id == i) with
  | true =>
    have hai : a.id = i := by simpa using ha
    simp [Function.comp_apply, hai, hf a]
  | false =>
    have hai : ¬a.id = i := by simpa using ha
    simp [Function.comp_apply, hai]

/-- An update that maps every node to itself is the identity. -/
theorem setNode_id (g : GraphS) (i : Nat) : setNode g i (fun m => m) = g := by
  unfold setNode
  simp

/-- C1: during a pass, `WorkState::add_to_queue` either schedules the
work back onto the Graph's intake queue for the next pass and counts
`pushed_graph` (when `w.id ≤ current_id`), or increments the work's
refcount, pushes it onto this pass's heap and counts `pushed_heap`
(when `w.id > current_id`). -/
theorem addToQueue_spec (g : GraphS) (ws : WState) (wid : Nat) :
    (wid ≤ ws.currentId →
      addToQueue g ws wid =
        (schedule g wid,
         { ws with stats := { ws.stats with pushed_graph := ws.stats.pushed_graph + 1 } })) ∧
    (ws.currentId < wid →
      addToQueue g ws wid =
        (addRef g wid,
         { ws with q := heapPush ws.q wid,
                   stats := { ws.stats with pushed_heap := ws.stats.pushed_heap + 1 } })) := by
  constructor
  · intro h
    rw [addToQueue, if_pos h]
  · intro h
    rw [addToQueue, if_neg (Nat.not_le.mpr h)]

/-- Witness for C1: a concrete work with id at most the cursor is
scheduled onto the intake queue and counted in `pushed_graph`. -/
theorem addToQueue_spec_witness :
    addToQueue gW wsW 3 =
      (schedule gW 3,
       { wsW with stats := { wsW.stats with pushed_graph := wsW.stats.pushed_graph + 1 } }) :=
  (addToQueue_spec gW wsW 3).1 (by decide)

/-- C6: the OnChange policy invoked with stored value p on a new value v
returns true iff v differs from p under structural inequality, and
afterwards the stored last-propagated value is v. -/
theorem onChange_spec {R : Type} [BEq R] [LawfulBEq R] (p v : R) :
    ((OnChangeRun p v).1 = true ↔ v ≠ p) ∧ (OnChangeRun p v).2 = v := by
  constructor
  · simp only [OnChangeRun, bne_iff_ne, ne_eq]
    exact ⟨fun h hc => h hc.symm, fun h hc => h hc.symm⟩
  · rfl

/-- Witness for C6 at concrete integers 3 and 4. -/
theorem onChange_spec_witness :
    ((OnChangeRun (3 : Int) 4).1 = true ↔ (4 : Int) ≠ 3) ∧ (OnChangeRun (3 : Int) 4).2 = 4 :=
  onChange_spec 3 4

/-- Counterexample to C7 as stated: with two downstream entries aiming at
the same Value cell, `dependents.remove` (a `std::forward_list::remove`)
deletes both of them, not only the first one as the claim says. -/
theorem disconnect_removes_all_counterexample :
    dependentsRemove [aW, aW] aW ≠ removeFirstMatching [aW, aW] aW := by decide

/-- C7 (amended): `Node::disconnect` removes every entry of the
downstream list that matches the argument, where two Inputs match iff
they point to the same Value cell (pointer identity, not stored value);
it is idempotent and leaves the list unchanged when nothing matches. -/
theorem disconnect_spec (deps : List InputR) (a : InputR) :
    (∀ d, d ∈ dependentsRemove deps a ↔ d ∈ deps ∧ inputEq d a = false) ∧
    ((∀ d ∈ deps, inputEq d a = false) → dependentsRemove deps a = deps) ∧
    dependentsRemove (dependentsRemove deps a) a = dependentsRemove deps a ∧
    (∀ l r l2 r2, inputEq ⟨l, r⟩ ⟨l2, r2⟩ = decide (l = l2)) ∧
    (∀ g wid n, getNode g wid = some n →
      getNode (nodeDisconnect g wid a) wid =
        some { n with dependents := dependentsRemove n.dependents a }) := by
  refine ⟨?_, ?_, ?_, ?_, ?_⟩
  · intro d
    simp [dependentsRemove, List.mem_filter]
  · intro h
    rw [dependentsRemove, List.filter_eq_self]
    intro d hd
    simp [h d hd]
  · simp [dependentsRemove, List.filter_filter]
  · intro l r l2 r2
    rfl
  · intro g wid n h
    exact getNode_setNode_self g wid
      (fun m => { m with dependents := dependentsRemove m.dependents a }) (fun m => rfl) n h

/-- Witness for C7 (amended): removing a non-matching Input leaves a
concrete one-element downstream list unchanged. -/
theorem disconnect_spec_witness : dependentsRemove [bW] aW = [bW] :=
  (disconnect_spec [bW] aW).2.1 (by decide)

/-- C10: `trylock_and_dequeue` on a Work whose exclusion flag is held
fails to acquire the lock, yet the same atomic exchange clears the
queue-pointer bits (removing the Work from the intake queue) and leaves
the exclusion flag set; the failing caller in `Node::eval` then hands
the Work to `WorkState::add_to_queue` for re-admission. -/
theorem trylockAndDequeue_failure (nw : NextWord) (g : GraphS) (ws : WState) (wid : Nat)
    (n : GNode) (hl : nw.locked = true) (hn : getNode g wid = some n)
    (hnl : n.next.locked = true) :
    (trylockAndDequeue nw).1 = false ∧
    (trylockAndDequeue nw).2.ptr = none ∧
    (trylockAndDequeue nw).2.locked = true ∧
    nodeEval g ws wid =
      addToQueue (setNode g wid (fun m => { m with next := ⟨true, none⟩ })) ws wid := by
  refine ⟨by simp [trylockAndDequeue, hl], rfl, rfl, ?_⟩
  simp [nodeEval, hn, trylockAndDequeue, hnl]

/-- Witness for C10: evaluating the concrete locked node re-admits it via
`add_to_queue` after clearing its queue pointer. -/
theorem trylockAndDequeue_failure_witness :
    nodeEval gLocked wsW 1 =
      addToQueue (setNode gLocked 1 (fun m => { m with next := ⟨true, none⟩ })) wsW 1 :=
  (trylockAndDequeue_failure ⟨true, some 0⟩ gLocked wsW 1 nLocked rfl rfl rfl).2.2.2

/-- `Work::schedule` on a work whose queue-pointer bits are already
non-null: the first-iteration short-circuit undoes the refcount increment
and leaves the whole graph state unchanged. -/
theorem schedule_already_queued (g : GraphS) (wid : Nat) (n : GNode)
    (h : getNode g wid = some n) (hp : n.next.ptr.isSome = true) :
    schedule g wid = g := by
  have h1 : getNode (addRef g wid) wid = some { n with refcount := n.refcount + 1 } :=
    getNode_setNode_self g wid (fun m => { m with refcount := m.refcount + 1 })
      (fun m => rfl) n h
  have h2 : schedule g wid = releaseRef (addRef g wid) wid := by
    simp [schedule, h1, hp]
  rw [h2]
  unfold releaseRef addRef
  rw [setNode_setNode g wid (fun m => { m with refcount := m.refcount + 1 })
        (fun m => { m with refcount := m.refcount - 1 }) (fun m => rfl)]
  exact setNode_id g wid

/-- C5: `Work::schedule` is idempotent.  If the work's queue-pointer bits
are non-null on the first inspection, `schedule` returns leaving the
intake queue (indeed the whole state, the refcount increment undone)
unchanged; consequently scheduling the same work twice before a pass
equals scheduling it once, so it is drained from the queue once. -/
theorem schedule_idempotent (g : GraphS) (wid : Nat) (n : GNode)
    (h : getNode g wid = some n) :
    (n.next.ptr.isSome = true → schedule g wid = g) ∧
    schedule (schedule g wid) wid = schedule g wid := by
  refine ⟨fun hp => schedule_already_queued g wid n h hp, ?_⟩
  cases hp : n.next.ptr with
  | some k =>
    have hs : n.next.ptr.isSome = true := by rw [hp]; rfl
    rw [schedule_already_queued g wid n h hs, schedule_already_queued g wid n h hs]
  | none =>
    have h1 : getNode (addRef g wid) wid = some { n with refcount := n.refcount + 1 } :=
      getNode_setNode_self g wid (fun m => { m with refcount := m.refcount + 1 })
        (fun m => rfl) n h
    have h2 : schedule g wid =
        { setNode (addRef g wid) wid
            (fun m => { m with next := ⟨m.next.locked, some (addRef g wid).workQueueHead⟩ })
          with workQueueHead := wid } := by
      simp [schedule, h1, hp]
    have h3 : getNode (schedule g wid) wid =
        some { n with refcount := n.refcount + 1,
                      next := ⟨n.next.locked, some (addRef g wid).workQueueHead⟩ } := by
      rw [h2]
      exact getNode_setNode_self (addRef g wid) wid
        (fun m => { m with next := ⟨m.next.locked, some (addRef g wid).workQueueHead⟩ })
        (fun m => rfl) _ h1
    exact schedule_already_queued (schedule g wid) wid _ h3 rfl

/-- Witness for C5: double scheduling the concrete one-node graph equals
single scheduling. -/
theorem schedule_idempotent_witness : schedule (schedule gW 1) 1 = schedule gW 1 :=
  (schedule_idempotent gW 1 nW rfl).2

/-- C8: if the propagation policy rejects the newly computed result,
`Node::eval` writes no downstream Value slot and adds no work to the
WorkState: the per-pass heap, cursor and statistics are untouched, the
sink cells and intake-queue head are untouched, and every other node is
unchanged (only the evaluated node's policy state and lock word move).
In particular a node whose OnChange policy sees an unchanged value
evaluates without disturbing anything downstream. -/
theorem nodeEval_no_propagation (g : GraphS) (ws : WState) (wid : Nat) (n : GNode)
    (h : getNode g wid = some n) (hl : n.next.locked = false)
    (hp : (Policy.run n.policy (n.fn n.inputs)).1 = false) :
    (nodeEval g ws wid).2 = ws ∧
    (nodeEval g ws wid).1.sinks = g.sinks ∧
    (nodeEval g ws wid).1.workQueueHead = g.workQueueHead ∧
    (∀ j, j ≠ wid → getNode (nodeEval g ws wid).1 j = getNode g j) := by
  have he : nodeEval g ws wid =
      (releaseLock (setNode (setNode g wid (fun m => { m with next := ⟨true, none⟩ })) wid
         (fun m => { m with policy := (Policy.run n.policy (n.fn n.inputs)).2 })) wid, ws) := by
    simp [nodeEval, h, trylockAndDequeue, hl, hp]
  have he1 : (nodeEval g ws wid).1 =
      releaseLock (setNode (setNode g wid (fun m => { m with next := ⟨true, none⟩ })) wid
        (fun m => { m with policy := (Policy.run n.policy (n.fn n.inputs)).2 })) wid := by
    rw [he]
  have he2 : (nodeEval g ws wid).2 = ws := by rw [he]
  refine ⟨he2, by rw [he1]; rfl, by rw [he1]; rfl, ?_⟩
  intro j hj
  rw [he1]
  unfold releaseLock
  rw [getNode_setNode_ne _ wid j
        (fun m => { m with next := ⟨false, m.next.ptr⟩ }) (fun m => rfl) hj,
      getNode_setNode_ne _ wid j
        (fun m => { m with policy := (Policy.run n.policy (n.fn n.inputs)).2 }) (fun m => rfl) hj,
      getNode_setNode_ne _ wid j
        (fun m => { m with next := ⟨true, none⟩ }) (fun m => rfl) hj]

/-- Witness for C8: the concrete OnChange node recomputes its unchanged
value and leaves the work state untouched. -/
theorem nodeEval_no_propagation_witness : (nodeEval gOC wsW 1).2 = wsW :=
  (nodeEval_no_propagation gOC wsW 1 nOC rfl rfl rfl).1

/-- A pass over an empty intake queue takes the tombstone branch. -/
theorem evaluate_of_empty (g : GraphS) (h : g.workQueueHead = 0) :
    evaluate g = ⟨{ g with workQueueHead := 0 }, EmptyStats, [], true, false⟩ := by
  simp [evaluate, h]

/-- Counterexample to C9 as stated: for the self-loop graph the first
pass returns true, yet the immediately following pass (no intervening
appends or schedule calls) reports nonzero queued and worked, because the
pass itself pushed the node back onto the intake queue. -/
theorem evaluate_second_pass_counterexample :
    (evaluate gLoop).ret = true ∧
    (evaluate (evaluate gLoop).g).stats.queued ≠ 0 ∧
    (evaluate (evaluate gLoop).g).stats.worked ≠ 0 := by decide

/-- C9 (amended): after a pass of `Graph::evaluate` that returned true
and left the intake queue empty (no work was pushed back to the Graph's
queue during the pass), an immediately following pass with no intervening
appends or schedule calls reports queued = 0 and worked = 0. -/
theorem evaluate_second_pass_zero (g : GraphS)
    (_hret : (evaluate g).ret = true)
    (hq : (evaluate g).g.workQueueHead = 0) :
    (evaluate ((evaluate g).g)).stats.queued = 0 ∧
    (evaluate ((evaluate g).g)).stats.worked = 0 := by
  rw [evaluate_of_empty _ hq]
  exact ⟨rfl, rfl⟩

/-- Witness for C9 (amended) on a concrete one-node acyclic graph. -/
theorem evaluate_second_pass_zero_witness :
    (evaluate (evaluate gOnce).g).stats.queued = 0 ∧
    (evaluate (evaluate gOnce).g).stats.worked = 0 :=
  evaluate_second_pass_zero gOnce (by decide) (by decide)

/-! Heap lemmas: `heapPush` keeps the element list sorted and adds
exactly the pushed element. -/

/-- Membership after a heap push. -/
theorem mem_heapPush : ∀ (q : List Nat) (y x : Nat), x ∈ heapPush q y ↔ x = y ∨ x ∈ q
  | [], y, x => by simp [heapPush]
  | z :: zs, y, x => by
    unfold heapPush
    by_cases h : workQueueCmp z y = true
    · simp only [h, if_true, List.mem_cons]
    · simp only [h, if_false, Bool.false_eq_true, List.mem_cons, mem_heapPush zs y x]
      tauto

/-- A heap push preserves sortedness of the element list. -/
theorem pairwise_heapPush : ∀ (q : List Nat) (y : Nat),
    q.Pairwise (· ≤ ·) → (heapPush q y).Pairwise (· ≤ ·)
  | [], y, _ => by simp [heapPush]
  | z :: zs, y, hp => by
    have h1 : ∀ b ∈ zs, z ≤ b := (List.pairwise_cons.mp hp).1
    have h2 : zs.Pairwise (· ≤ ·) := (List.pairwise_cons.mp hp).2
    unfold heapPush
    by_cases h : workQueueCmp z y = true
    · have hzy : y < z := by simpa [workQueueCmp] using h
      simp only [h, if_true]
      rw [List.pairwise_cons]
      refine ⟨?_, hp⟩
      intro b hb
      rcases List.mem_cons.mp hb with rfl | hb2
      · omega
      · exact le_trans (le_of_lt hzy) (h1 b hb2)
    · have hzy : z ≤ y := by
        simp only [workQueueCmp, decide_eq_true_eq] at h
        omega
      simp only [h, if_false, Bool.false_eq_true]
      rw [List.pairwise_cons]
      refine ⟨?_, pairwise_heapPush zs y h2⟩
      intro b hb
      rcases (mem_heapPush zs y b).mp hb with rfl | hb2
      · exact hzy
      · exact h1 b hb2

/-- The duplicate-coalescing loop characterised: it releases a reference
for each leading heap entry equal to the popped id, removes them all,
and counts each one in `duplicates`. -/
theorem popDuplicates_eq (wid : Nat) (q : List Nat) : ∀ (g : GraphS) (st : Stats),
    popDuplicates wid q g st =
      ((q.takeWhile (fun x => x == wid)).foldl releaseRef g,
       q.dropWhile (fun x => x == wid),
       { st with duplicates := st.duplicates + (q.takeWhile (fun x => x == wid)).length }) := by
  induction q with
  | nil => intro g st; simp [popDuplicates]
  | cons x xs ih =>
    intro g st
    by_cases h : x = wid
    · subst h
      rw [popDuplicates, if_pos rfl, ih]
      simp only [List.takeWhile_cons, List.dropWhile_cons, beq_self_eq_true, if_true,
        List.foldl_cons, List.length_cons]
      have harith : st.duplicates + 1 + (List.takeWhile (fun y => y == x) xs).length
          = st.duplicates + ((List.takeWhile (fun y => y == x) xs).length + 1) := by omega
      rw [harith]
    · have hb : (x == wid) = false := by simpa using h
      rw [popDuplicates, if_neg h]
      simp [List.takeWhile_cons, List.dropWhile_cons, hb]

/-- After dropping the leading run equal to `wid` from a sorted list
bounded below by `wid`, every remaining entry strictly exceeds `wid`. -/
theorem dropWhile_gt (wid : Nat) : ∀ (q : List Nat), q.Pairwise (· ≤ ·) →
    (∀ x ∈ q, wid ≤ x) → ∀ x ∈ q.dropWhile (fun x => x == wid), wid < x
  | [], _, _ => by simp
  | y :: ys, hp, hge => by
    have h1 : ∀ b ∈ ys, y ≤ b := (List.pairwise_cons.mp hp).1
    have h2 : ys.Pairwise (· ≤ ·) := (List.pairwise_cons.mp hp).2
    by_cases h : (y == wid) = true
    · rw [show (y :: ys).dropWhile (fun x => x == wid) = ys.dropWhile (fun x => x == wid) by
        simp [List.dropWhile_cons, h]]
      refine dropWhile_gt wid ys h2 ?_
      intro x hx
      exact hge x (List.mem_cons_of_mem _ hx)
    · have hb : (y == wid) = false := by simpa using h
      rw [show (y :: ys).dropWhile (fun x => x == wid) = y :: ys by
        simp [List.dropWhile_cons, hb]]
      intro x hx
      rcases List.mem_cons.mp hx with rfl | hx2
      · have hw : wid ≤ x := hge x (List.mem_cons_self _ _)
        have hne : ¬x = wid := by simpa using hb
        omega
      · have hyx : y ≤ x := h1 x hx2
        have hw : wid ≤ y := hge y (List.mem_cons_self _ _)
        have hne : ¬y = wid := by simpa using hb
        omega

/-! Invariant preservation: every work added to the heap during an
evaluation has id strictly above the cursor, so the heap invariant
survives `add_to_queue`, the dependents loop, and a whole `eval`. -/

/-- `add_to_queue` preserves the heap invariant and the cursor. -/
theorem addToQueue_inv (g : GraphS) (ws : WState) (wid : Nat)
    (h : QInv ws.currentId ws.q) :
    QInv ws.currentId (addToQueue g ws wid).2.q ∧
    (addToQueue g ws wid).2.currentId = ws.currentId := by
  unfold addToQueue
  by_cases hc : wid ≤ ws.currentId
  · rw [if_pos hc]
    exact ⟨h, rfl⟩
  · rw [if_neg hc]
    refine ⟨⟨pairwise_heapPush ws.q wid h.1, ?_⟩, rfl⟩
    intro x hx
    rcases (mem_heapPush ws.q wid x).mp hx with rfl | hx2
    · omega
    · exact h.2 x hx2

/-- The dependents loop preserves the heap invariant and the cursor. -/
theorem propagateAll_inv (val : Int) : ∀ (deps : List InputR) (g : GraphS) (ws : WState),
    QInv ws.currentId ws.q →
    QInv ws.currentId (propagateAll val deps g ws).2.q ∧
    (propagateAll val deps g ws).2.currentId = ws.currentId
  | [], g, ws, h => ⟨h, rfl⟩
  | d :: rest, g, ws, h => by
    cases hr : d.ref with
    | some r =>
      have ha := addToQueue_inv (storeLoc g d.dest val) ws r h
      have h2 : QInv (addToQueue (storeLoc g d.dest val) ws r).2.currentId
          (addToQueue (storeLoc g d.dest val) ws r).2.q := by
        rw [ha.2]; exact ha.1
      have ih := propagateAll_inv val rest (addToQueue (storeLoc g d.dest val) ws r).1
        (addToQueue (storeLoc g d.dest val) ws r).2 h2
      have hstep : propagateAll val (d :: rest) g ws =
          propagateAll val rest (addToQueue (storeLoc g d.dest val) ws r).1
            (addToQueue (storeLoc g d.dest val) ws r).2 := by
        simp [propagateAll, hr]
      rw [hstep]
      exact ⟨by rw [ih.2, ha.2] at *; exact (ha.2 ▸ ih.1), ih.2.trans ha.2⟩
    | none =>
      have ih := propagateAll_inv val rest (storeLoc g d.dest val) ws h
      have hstep : propagateAll val (d :: rest) g ws =
          propagateAll val rest (storeLoc g d.dest val) ws := by
        simp [propagateAll, hr]
      rw [hstep]
      exact ih

/-- `Node::eval` preserves the heap invariant and the cursor: every id it
adds to this pass's heap strictly exceeds `current_id`. -/
theorem nodeEval_inv (g : GraphS) (ws : WState) (wid : Nat)
    (h : QInv ws.currentId ws.q) :
    QInv ws.currentId (nodeEval g ws wid).2.q ∧
    (nodeEval g ws wid).2.currentId = ws.currentId := by
  cases hn : getNode g wid with
  | none =>
    have hstep : nodeEval g ws wid = (g, ws) := by simp [nodeEval, hn]
    rw [hstep]
    exact ⟨h, rfl⟩
  | some n =>
    cases hl : n.next.locked with
    | true =>
      have hstep : nodeEval g ws wid =
          addToQueue (setNode g wid (fun m => { m with next := ⟨true, none⟩ })) ws wid := by
        simp [nodeEval, hn, trylockAndDequeue, hl]
      rw [hstep]
      exact addToQueue_inv _ ws wid h
    | false =>
      cases hp : (Policy.run n.policy (n.fn n.inputs)).1 with
      | true =>
        have hstep : (nodeEval g ws wid).2 =
            (propagateAll (n.fn n.inputs) n.dependents
              (setNode (setNode g wid (fun m => { m with next := ⟨true, none⟩ })) wid
                (fun m => { m with policy := (Policy.run n.policy (n.fn n.inputs)).2 }))
              ws).2 := by
          simp [nodeEval, hn, trylockAndDequeue, hl, hp]
        rw [hstep]
        exact propagateAll_inv (n.fn n.inputs) n.dependents _ ws h
      | false =>
        have hstep : (nodeEval g ws wid).2 = ws := by
          simp [nodeEval, hn, trylockAndDequeue, hl, hp]
        rw [hstep]
        exact ⟨h, rfl⟩

/-- Unfolding the main loop one iteration: the popped minimum id heads
the invocation order. -/
theorem passLoop_evalOrder_cons (fuel : Nat) (g : GraphS) (w : Nat) (rest : List Nat)
    (st : Stats) :
    (passLoop (fuel+1) g (w :: rest) st).evalOrder =
      w :: (passLoop fuel (passStep g w rest st).1 (passStep g w rest st).2.1
              (passStep g w rest st).2.2).evalOrder := rfl

/-- The ids `eval` is invoked on during the main loop are strictly
increasing and all strictly above any lower bound of the initial heap,
provided the heap starts sorted. -/
theorem passLoop_order (fuel : Nat) : ∀ (g : GraphS) (q : List Nat) (st : Stats) (c : Nat),
    q.Pairwise (· ≤ ·) → (∀ x ∈ q, c < x) →
    (passLoop fuel g q st).evalOrder.Pairwise (· < ·) ∧
    ∀ x ∈ (passLoop fuel g q st).evalOrder, c < x := by
  induction fuel with
  | zero =>
    intro g q st c _ _
    refine ⟨List.Pairwise.nil, ?_⟩
    intro x hx
    simp [passLoop] at hx
  | succ fuel ih =>
    intro g q st c hs hc
    cases q with
    | nil =>
      refine ⟨List.Pairwise.nil, ?_⟩
      intro x hx
      simp [passLoop] at hx
    | cons w rest =>
      have hrest1 : ∀ b ∈ rest, w ≤ b := (List.pairwise_cons.mp hs).1
      have hrest2 : rest.Pairwise (· ≤ ·) := (List.pairwise_cons.mp hs).2
      have hd1 : (popDuplicates w rest g st).2.1 = rest.dropWhile (fun x => x == w) := by
        rw [popDuplicates_eq]
      have hq2s : ((popDuplicates w rest g st).2.1).Pairwise (· ≤ ·) := by
        rw [hd1]
        exact hrest2.sublist (List.dropWhile_sublist _)
      have hq2gt : ∀ x ∈ (popDuplicates w rest g st).2.1, w < x := by
        rw [hd1]
        exact dropWhile_gt w rest hrest2 hrest1
      have hni := nodeEval_inv (popDuplicates w rest g st).1
        ⟨(popDuplicates w rest g st).2.1, w, (popDuplicates w rest g st).2.2⟩ w ⟨hq2s, hq2gt⟩
      have hihq := ih (passStep g w rest st).1 (passStep g w rest st).2.1
        (passStep g w rest st).2.2 w hni.1.1 hni.1.2
      rw [passLoop_evalOrder_cons]
      constructor
      · rw [List.pairwise_cons]
        exact ⟨hihq.2, hihq.1⟩
      · intro x hx
        rcases List.mem_cons.mp hx with rfl | hx2
        · exact hc x (List.mem_cons_self _ _)
        · exact lt_trans (hc w (List.mem_cons_self _ _)) (hihq.2 x hx2)

/-- With positive fuel, the main loop over a nonempty heap invokes eval
at least once. -/
theorem passLoop_order_ne_nil (fuel : Nat) (g : GraphS) (st : Stats) :
    ∀ (q : List Nat), q ≠ [] → (passLoop (fuel+1) g q st).evalOrder ≠ []
  | [], h => absurd rfl h
  | w :: rest, _ => by
    rw [passLoop_evalOrder_cons]
    simp

/-- Draining preserves sortedness of the heap's element list. -/
theorem pairwise_drainFold : ∀ (chain q : List Nat) (st : Stats),
    q.Pairwise (· ≤ ·) → (drainFold chain q st).1.Pairwise (· ≤ ·)
  | [], _, _, h => h
  | w :: rest, q, _, h =>
    pairwise_drainFold rest (heapPush q w) _ (pairwise_heapPush q w h)

/-- Membership in the heap after draining a queue snapshot. -/
theorem mem_drainFold : ∀ (chain q : List Nat) (st : Stats) (x : Nat),
    x ∈ (drainFold chain q st).1 ↔ x ∈ chain ∨ x ∈ q
  | [], q, st, x => by simp [drainFold]
  | w :: rest, q, st, x => by
    rw [drainFold, mem_drainFold rest (heapPush q w) _ x, mem_heapPush]
    simp only [List.mem_cons]
    tauto

/-- Every id on the drained queue snapshot is positive: the walk stops
at the tombstone (id 0) and never records it. -/
theorem chainList_pos (g : GraphS) : ∀ (fuel w x : Nat),
    x ∈ chainList g fuel w → 0 < x
  | 0, w, x, h => by simp [chainList] at h
  | fuel+1, w, x, h => by
    rw [chainList] at h
    by_cases hw : w = 0
    · rw [if_pos hw] at h
      simp at h
    · rw [if_neg hw] at h
      rcases List.mem_cons.mp h with rfl | h2
      · omega
      · cases hne : chainNext g w with
        | none =>
          rw [hne] at h2
          simp at h2
        | some nxt =>
          rw [hne] at h2
          rw [Option.elim_some] at h2
          exact chainList_pos g fuel nxt x h2

/-- A nonempty walk starts with its head. -/
theorem chainList_head_mem (g : GraphS) (fuel w : Nat) (h : w ≠ 0) :
    w ∈ chainList g (fuel+1) w := by
  rw [chainList, if_neg h]
  exact List.mem_cons_self _ _

/-- A pass over a nonempty intake queue: the invocation order comes from
running the main loop on the drained snapshot. -/
theorem evaluate_evalOrder_of_nonempty (g : GraphS) (h : g.workQueueHead ≠ 0) :
    (evaluate g).evalOrder =
      (passLoop (graphFuel { g with workQueueHead := 0 }) { g with workQueueHead := 0 }
        (drainFold (chainList { g with workQueueHead := 0 } (g.nodes.length + 1)
            g.workQueueHead) [] EmptyStats).1
        (drainFold (chainList { g with workQueueHead := 0 } (g.nodes.length + 1)
            g.workQueueHead) [] EmptyStats).2).evalOrder := by
  simp [evaluate, h]

/-- A pass over a nonempty intake queue returns true. -/
theorem evaluate_ret_of_nonempty (g : GraphS) (h : g.workQueueHead ≠ 0) :
    (evaluate g).ret = true := by
  simp [evaluate, h]

/-- The invocation order of any pass is strictly increasing in id. -/
theorem evaluate_order_helper (g : GraphS) : (evaluate g).evalOrder.Pairwise (· < ·) := by
  by_cases h : g.workQueueHead = 0
  · rw [evaluate_of_empty g h]
    exact List.Pairwise.nil
  · rw [evaluate_evalOrder_of_nonempty g h]
    refine (passLoop_order _ _ _ _ 0 ?_ ?_).1
    · exact pairwise_drainFold _ [] _ List.Pairwise.nil
    · intro x hx
      rcases (mem_drainFold _ [] _ x).mp hx with hc | hnil
      · exact chainList_pos _ _ _ x hc
      · simp at hnil

/-- C2: within a single call to Graph.evaluate, eval is invoked on Works
in strictly increasing id order: any Work evaluated after another in the
same pass has the strictly greater id. -/
theorem evaluate_strict_order (g : GraphS) :
    (evaluate g).evalOrder.Pairwise (· < ·) :=
  evaluate_order_helper g

/-- C3: Graph.evaluate returns true iff any work was performed.  It
returns false exactly when the swapped-out intake-queue head is the
sentinel, and then no eval is invoked; otherwise at least one Work's
eval is invoked and it returns true. -/
theorem evaluate_ret_iff_work (g : GraphS) :
    ((evaluate g).ret = true ↔ g.workQueueHead ≠ 0) ∧
    ((evaluate g).evalOrder = [] ↔ g.workQueueHead = 0) := by
  by_cases h : g.workQueueHead = 0
  · rw [evaluate_of_empty g h]
    simp [h]
  · have hr := evaluate_ret_of_nonempty g h
    have hne : (evaluate g).evalOrder ≠ [] := by
      rw [evaluate_evalOrder_of_nonempty g h]
      have hm : g.workQueueHead ∈ (drainFold (chainList { g with workQueueHead := 0 }
          (g.nodes.length + 1) g.workQueueHead) [] EmptyStats).1 := by
        rw [mem_drainFold]
        exact Or.inl (chainList_head_mem _ g.nodes.length _ h)
      exact passLoop_order_ne_nil (maxRef { g with workQueueHead := 0 } + 1) _ _ _
        (List.ne_nil_of_mem hm)
    constructor
    · simp [hr, h]
    · exact ⟨fun he => absurd he hne, fun h0 => absurd h0 h⟩

/-- C4: within a single pass, eval is invoked at most once per Work id
(the invocation order has no duplicate ids); and the coalescing loop pops
every subsequent heap entry whose id equals the popped one, releasing a
reference for each and counting each in stats.duplicates, without
invoking eval on them. -/
theorem evaluate_once_per_id (g : GraphS) :
    (evaluate g).evalOrder.Nodup ∧
    ∀ (wid : Nat) (q : List Nat) (g2 : GraphS) (st : Stats),
      popDuplicates wid q g2 st =
        ((q.takeWhile (fun x => x == wid)).foldl releaseRef g2,
         q.dropWhile (fun x => x == wid),
         { st with duplicates := st.duplicates + (q.takeWhile (fun x => x == wid)).length }) := by
  constructor
  · exact List.Pairwise.imp (fun h => Nat.ne_of_lt h) (evaluate_order_helper g)
  · intro wid q g2 st
    exact popDuplicates_eq wid q g2 st

end Calcgraph
